import Mathlib

/-!
Shallow embedding of the BGP path-attribute decoder of PyGoBGP
(`src/pygobgp/pygobgp.py`, class `PyGoBGP`, methods `_extract_routes`,
`_extract_as_path`, `_extract_community`, `_extract_next_hop`,
`_extract_med`, `chunkstring`).

A raw attribute is a byte string; the Python code works on `attr.hex()`,
the lowercase hexadecimal rendering of those bytes.  We model a byte
string as `List Nat` (each entry a byte value) and its hex rendering as
the list of nibble values (`hexOf`), which makes the code's string
slicing (`attr[6:]`, `attr[10:]`), prefix tests (`startswith`) and
hex-integer parsing (`int(s, 16)`) exact list operations.  The
`.upper()` in the community matcher only changes the case of hex
letters, which the numeric nibble representation already ignores.
Python exceptions that the decoder can raise (`IndexError` from
`destination.paths[0]`, `ValueError` from `int("", 16)`, `struct.error`
from `struct.pack(">L", n)` on an out-of-range value) are modelled with
`Except PyExc`.
-/

namespace PyGoBGP

/-- The Python exceptions reachable from the extraction code. -/
inductive PyExc where
  | indexError
  | valueError
  | structError
deriving DecidableEq, Repr

instance instDecEqExcept {ε α : Type _} [DecidableEq ε] [DecidableEq α] :
    DecidableEq (Except ε α)
  | .error a, .error b =>
    if h : a = b then .isTrue (congrArg _ h)
    else .isFalse fun hh => h (Except.error.inj hh)
  | .error _, .ok _ => .isFalse Except.noConfusion
  | .ok _, .error _ => .isFalse Except.noConfusion
  | .ok a, .ok b =>
    if h : a = b then .isTrue (congrArg _ h)
    else .isFalse fun hh => h (Except.ok.inj hh)

/-- The two hex digits (nibble values) of one byte, as `"%02x"` renders it:
high nibble then low nibble. -/
def byteNibbles (b : Nat) : List Nat := [b / 16, b % 16]

/-- Model of `bytes.hex()`: the nibble-value list of the hexadecimal rendering of a
byte string. -/
def hexOf (bs : List Nat) : List Nat := bs.flatMap byteNibbles

/-- Model of `int(s, 16)` on a nonempty hex string: fold the nibble values in base 16.
(The empty-string case, where Python raises `ValueError`, is handled at the
call sites that can reach it.) -/
def natOfNibbles (s : List Nat) : Nat := s.foldl (fun acc d => 16 * acc + d) 0

/-- Big-endian value of a byte string. -/
def beNat (bs : List Nat) : Nat := bs.foldl (fun acc b => 256 * acc + b) 0

/-- The 2-byte big-endian encoding of a 16-bit value. -/
def be16 (n : Nat) : List Nat := [n / 256 % 256, n % 256]

/-- The 4-byte big-endian encoding of a 32-bit value. -/
def be32 (n : Nat) : List Nat :=
  [n / 16777216 % 256, n / 65536 % 256, n / 256 % 256, n % 256]

/-- Model of `PyGoBGP.chunkstring(string, length)`:
`(int(string[0+i:length+i], 16) for i in range(0, len(string), length))`,
on the nibble list of the hex string.  For a positive step (the source only
calls this with lengths 8 and 4), `range(0, n, length)` is the arithmetic
sequence `0, length, 2*length, ...` with `ceil(n / length)` elements, and
the slice `string[i : i + length]` is `(s.drop i).take length`. -/
def chunkstring (length : Nat) (s : List Nat) : List Nat :=
  (List.range' 0 ((s.length + length - 1) / length) length).map
    fun i => natOfNibbles ((s.drop i).take length)

/-- Model of `socket.inet_ntoa(struct.pack(">L", n))`: render a 32-bit value as a
dotted-decimal IPv4 string. -/
def ipv4String (n : Nat) : String :=
  toString (n / 16777216 % 256) ++ "." ++ toString (n / 65536 % 256) ++ "."
    ++ toString (n / 256 % 256) ++ "." ++ toString (n % 256)

/-- Test `attr.hex().startswith("4002")` (AS_PATH matcher of `_extract_as_path`). -/
def matchAsPath (attr : List Nat) : Bool := (hexOf attr).take 4 == [4, 0, 0, 2]

/-- Test `attr.hex().startswith("4003")` (NEXT_HOP matcher of `_extract_next_hop`). -/
def matchNextHop (attr : List Nat) : Bool := (hexOf attr).take 4 == [4, 0, 0, 3]

/-- Test `attr.hex().startswith("800")` (MED matcher of `_extract_med`): only the
flags byte and the high nibble of the type-code byte are compared. -/
def matchMed (attr : List Nat) : Bool := (hexOf attr).take 3 == [8, 0, 0]

/-- Test `attr.hex().upper().startswith("C00")` (community matcher of
`_extract_community`); `upper` only affects letter case, which the numeric
nibble values already ignore. -/
def matchCommunity (attr : List Nat) : Bool := (hexOf attr).take 3 == [12, 0, 0]

/-- The pairing loop of `_extract_community`:
`for index, _ in enumerate(communities): if index % 2 == 1:
output.append("{}:{}".format(communities[index-1], communities[index]))`.
Indices `index - 1` and `index` are always in range when reached, so the
total `getD` accesses model Python's indexing exactly on the reachable
inputs. -/
def communityOutput (communities : List Nat) : List String :=
  (List.range communities.length).filterMap fun index =>
    if index % 2 = 1 then
      some (toString (communities.getD (index - 1) 0) ++ ":"
        ++ toString (communities.getD index 0))
    else none

/-- Loop body of `_extract_as_path` over `destination.paths[0].pattrs`:
first attribute whose hex starts with `"4002"` is decoded by dropping the
first 10 hex chars and chunking the rest into 8-hex-char (4-byte) integers;
no match gives `None`. -/
def asPathScan : List (List Nat) → Option (List Nat)
  | [] => none
  | attr :: rest =>
    if matchAsPath attr then some (chunkstring 8 ((hexOf attr).drop 10))
    else asPathScan rest

/-- Loop body of `_extract_next_hop`: first attribute whose hex starts with
`"4003"` is decoded by `int(attr[6:], 16)` (raising `ValueError` on the
empty slice) followed by `socket.inet_ntoa(struct.pack(">L", n))` (raising
`struct.error` when `n` exceeds 32 bits); no match gives `None`. -/
def nextHopScan : List (List Nat) → Except PyExc (Option String)
  | [] => .ok none
  | attr :: rest =>
    if matchNextHop attr then
      if (hexOf attr).drop 6 = [] then .error .valueError
      else
        if natOfNibbles ((hexOf attr).drop 6) < 4294967296 then
          .ok (some (ipv4String (natOfNibbles ((hexOf attr).drop 6))))
        else .error .structError
    else nextHopScan rest

/-- Loop body of `_extract_med`: first attribute whose hex starts with
`"800"` is decoded by `int(attr[6:], 16)` (raising `ValueError` on the
empty slice); no match gives `None`. -/
def medScan : List (List Nat) → Except PyExc (Option Nat)
  | [] => .ok none
  | attr :: rest =>
    if matchMed attr then
      if (hexOf attr).drop 6 = [] then .error .valueError
      else .ok (some (natOfNibbles ((hexOf attr).drop 6)))
    else medScan rest

/-- Loop body of `_extract_community`: first attribute whose uppercased hex
starts with `"C00"` is decoded by chunking `attr[6:]` into 4-hex-char
(2-byte) integers and pairing consecutive chunks; no match gives `None`. -/
def communityScan : List (List Nat) → Option (List String)
  | [] => none
  | attr :: rest =>
    if matchCommunity attr then
      some (communityOutput (chunkstring 4 ((hexOf attr).drop 6)))
    else communityScan rest

/-- A `Path` message as the extractor uses it: just its `pattrs`, the raw
attribute byte strings. -/
structure Path where
  pattrs : List (List Nat)
deriving DecidableEq, Repr

/-- A `Destination` message as the extractor uses it: its `prefix` string
(field named `pfx` here because `prefix` is a Lean keyword) and its list of
candidate paths. -/
structure Destination where
  pfx : String
  paths : List Path
deriving DecidableEq, Repr

/-- One decoded route dict produced by `_extract_routes` (key `prefix`
rendered as `pfx`, as above). -/
structure Route where
  pfx : String
  as_path : Option (List Nat)
  next_hop : Option String
  community : Option (List String)
  med : Option Nat
deriving DecidableEq, Repr

/-- Model of `PyGoBGP._extract_as_path(destination)`: `destination.paths[0]` raises
`IndexError` on an empty path list; otherwise run the scan loop over the
first path's attributes. -/
def extract_as_path (d : Destination) : Except PyExc (Option (List Nat)) :=
  match d.paths with
  | [] => .error .indexError
  | p :: _ => .ok (asPathScan p.pattrs)

/-- Model of `PyGoBGP._extract_next_hop(destination)`. -/
def extract_next_hop (d : Destination) : Except PyExc (Option String) :=
  match d.paths with
  | [] => .error .indexError
  | p :: _ => nextHopScan p.pattrs

/-- Model of `PyGoBGP._extract_med(destination)`. -/
def extract_med (d : Destination) : Except PyExc (Option Nat) :=
  match d.paths with
  | [] => .error .indexError
  | p :: _ => medScan p.pattrs

/-- Model of `PyGoBGP._extract_community(destination)`. -/
def extract_community (d : Destination) : Except PyExc (Option (List String)) :=
  match d.paths with
  | [] => .error .indexError
  | p :: _ => .ok (communityScan p.pattrs)

/-- Model of `PyGoBGP._extract_routes(routes)` over `routes.table.destinations`:
for each destination, extract the four attributes (in source order:
as_path, next_hop, community, med) and append the route dict; any Python
exception aborts the whole loop. -/
def extract_routes : List Destination → Except PyExc (List Route)
  | [] => .ok []
  | d :: rest =>
    match extract_as_path d with
    | .error e => .error e
    | .ok as_path =>
      match extract_next_hop d with
      | .error e => .error e
      | .ok next_hop =>
        match extract_community d with
        | .error e => .error e
        | .ok community =>
          match extract_med d with
          | .error e => .error e
          | .ok med =>
            match extract_routes rest with
            | .error e => .error e
            | .ok tail =>
              .ok ({ pfx := d.pfx, as_path := as_path, next_hop := next_hop,
                     community := community, med := med } :: tail)

/-- A well-formed single-segment AS_PATH attribute for the AS numbers
`asns`: flags `0x40`, type-code 2, a 1-byte length covering the 2-byte
segment header plus the 4-byte AS numbers, segment type 2 (AS_SEQUENCE),
segment AS count, then the big-endian AS numbers. -/
def asPathAttr (asns : List Nat) : List Nat :=
  64 :: 2 :: (2 + 4 * asns.length) :: 2 :: asns.length :: asns.flatMap be32

/-- A community attribute with the given value bytes: flags `0xC0`,
type-code 8, 1-byte length, then the value. -/
def communityAttr (value : List Nat) : List Nat :=
  192 :: 8 :: value.length :: value

/-- The pairing the spec describes for `decode_community`: consecutive
2-byte fields are joined two at a time as `"<first>:<second>"`, a trailing
unpaired field being dropped. -/
def specPairs : List Nat → List String
  | a :: b :: rest => (toString a ++ ":" ++ toString b) :: specPairs rest
  | _ => []

/-! ### Basic lemmas about the hex/byte helpers -/

theorem hexOf_nil : hexOf [] = [] := rfl

theorem hexOf_cons (b : Nat) (bs : List Nat) :
    hexOf (b :: bs) = b / 16 :: b % 16 :: hexOf bs := rfl

theorem hexOf_append (a b : List Nat) : hexOf (a ++ b) = hexOf a ++ hexOf b := by
  simp [hexOf]

theorem hexOf_flatMap {α : Type _} (f : α → List Nat) (xs : List α) :
    hexOf (xs.flatMap f) = xs.flatMap fun x => hexOf (f x) := by
  induction xs with
  | nil => rfl
  | cons x xs ih => simp [List.flatMap_cons, hexOf_append, ih]

theorem length_hexOf (bs : List Nat) : (hexOf bs).length = 2 * bs.length := by
  induction bs with
  | nil => rfl
  | cons b bs ih => simp [hexOf_cons, ih]; omega

theorem hexOf_foldl (bs : List Nat) (acc : Nat) :
    (hexOf bs).foldl (fun a d => 16 * a + d) acc
      = bs.foldl (fun a b => 256 * a + b) acc := by
  induction bs generalizing acc with
  | nil => rfl
  | cons b bs ih =>
    simp only [hexOf_cons, List.foldl_cons]
    rw [ih]
    congr 1
    omega

theorem natOfNibbles_hexOf (bs : List Nat) : natOfNibbles (hexOf bs) = beNat bs :=
  hexOf_foldl bs 0

theorem beNat_be32 {n : Nat} (h : n < 4294967296) : beNat (be32 n) = n := by
  simp only [beNat, be32, List.foldl_cons, List.foldl_nil]
  omega

theorem beNat_be16 {n : Nat} (h : n < 65536) : beNat (be16 n) = n := by
  simp only [beNat, be16, List.foldl_cons, List.foldl_nil]
  omega

theorem length_hexOf_be32 (n : Nat) : (hexOf (be32 n)).length = 8 := rfl

theorem length_hexOf_be16 (n : Nat) : (hexOf (be16 n)).length = 4 := rfl

/-! ### Lemmas about `chunkstring` -/

theorem map_range'_shift {β : Type _} (g : Nat → β) (s n step : Nat) :
    (List.range' s n step).map g = (List.range' 0 n step).map fun i => g (s + i) := by
  have h := List.map_add_range' s 0 n step
  rw [Nat.add_zero] at h
  rw [← h, List.map_map]
  rfl

theorem chunkstring_nil (L : Nat) : chunkstring L [] = [] := by
  have h : (L - 1) / L = 0 := by
    cases L with
    | zero => rfl
    | succ k => apply Nat.div_eq_of_lt; omega
  simp [chunkstring, h]

theorem chunkstring_cons_chunk (L : Nat) (hL : 0 < L) (g rest : List Nat)
    (hg : g.length = L) :
    chunkstring L (g ++ rest) = natOfNibbles g :: chunkstring L rest := by
  unfold chunkstring
  have hcount : ((g ++ rest).length + L - 1) / L = (rest.length + L - 1) / L + 1 := by
    have he : (g ++ rest).length + L - 1 = (rest.length + L - 1) + L := by
      simp [List.length_append, hg]; omega
    rw [he, Nat.add_div_right _ hL]
  rw [hcount, List.range'_succ, List.map_cons]
  congr 1
  · rw [List.drop_zero, ← hg, List.take_left]
  · rw [map_range'_shift]
    apply List.map_congr_left
    intro i _
    have h1 : List.drop L (g ++ rest) = rest := by
      rw [← hg]; exact List.drop_left g rest
    have hdrop : List.drop (0 + L + i) (g ++ rest) = List.drop i rest := by
      calc List.drop (0 + L + i) (g ++ rest)
          = List.drop i (List.drop L (g ++ rest)) := by
            rw [Nat.zero_add]; exact (List.drop_drop i L _).symm
        _ = List.drop i rest := by rw [h1]
    rw [hdrop]

theorem chunkstring_flatMap {α : Type _} (L : Nat) (hL : 0 < L) (f : α → List Nat)
    (xs : List α) (hf : ∀ x ∈ xs, (f x).length = L) :
    chunkstring L (xs.flatMap f) = xs.map fun x => natOfNibbles (f x) := by
  induction xs with
  | nil => simpa using chunkstring_nil L
  | cons x xs ih =>
    rw [List.flatMap_cons, chunkstring_cons_chunk L hL _ _ (hf x (by simp)),
      List.map_cons, ih fun y hy => hf y (by simp [hy])]

theorem chunkstring_single (L : Nat) (hL : 0 < L) (s : List Nat)
    (hs : s ≠ []) (hlen : s.length ≤ L) :
    chunkstring L s = [natOfNibbles s] := by
  unfold chunkstring
  have hpos : 0 < s.length := List.length_pos.mpr hs
  have hcount : (s.length + L - 1) / L = 1 := by
    have h1 : 1 ≤ (s.length + L - 1) / L := by
      rw [Nat.le_div_iff_mul_le hL]; omega
    have h2 : (s.length + L - 1) / L < 2 := by
      rw [Nat.div_lt_iff_lt_mul hL]; omega
    omega
  rw [hcount]
  simp [List.range', List.take_of_length_le hlen]

/-! ### Lemmas about the scan loops -/

theorem asPathScan_append (pre l : List (List Nat))
    (h : ∀ b ∈ pre, matchAsPath b = false) :
    asPathScan (pre ++ l) = asPathScan l := by
  induction pre with
  | nil => rfl
  | cons a pre ih =>
    simp only [List.cons_append, asPathScan, h a (by simp), Bool.false_eq_true,
      if_false]
    exact ih fun b hb => h b (by simp [hb])

theorem nextHopScan_append (pre l : List (List Nat))
    (h : ∀ b ∈ pre, matchNextHop b = false) :
    nextHopScan (pre ++ l) = nextHopScan l := by
  induction pre with
  | nil => rfl
  | cons a pre ih =>
    simp only [List.cons_append, nextHopScan, h a (by simp), Bool.false_eq_true,
      if_false]
    exact ih fun b hb => h b (by simp [hb])

theorem medScan_append (pre l : List (List Nat))
    (h : ∀ b ∈ pre, matchMed b = false) :
    medScan (pre ++ l) = medScan l := by
  induction pre with
  | nil => rfl
  | cons a pre ih =>
    simp only [List.cons_append, medScan, h a (by simp), Bool.false_eq_true,
      if_false]
    exact ih fun b hb => h b (by simp [hb])

theorem communityScan_append (pre l : List (List Nat))
    (h : ∀ b ∈ pre, matchCommunity b = false) :
    communityScan (pre ++ l) = communityScan l := by
  induction pre with
  | nil => rfl
  | cons a pre ih =>
    simp only [List.cons_append, communityScan, h a (by simp), Bool.false_eq_true,
      if_false]
    exact ih fun b hb => h b (by simp [hb])

theorem asPathScan_no_match (attrs : List (List Nat))
    (h : ∀ b ∈ attrs, matchAsPath b = false) : asPathScan attrs = none := by
  have := asPathScan_append attrs [] h
  simpa using this

theorem nextHopScan_no_match (attrs : List (List Nat))
    (h : ∀ b ∈ attrs, matchNextHop b = false) : nextHopScan attrs = .ok none := by
  have := nextHopScan_append attrs [] h
  simpa using this

theorem medScan_no_match (attrs : List (List Nat))
    (h : ∀ b ∈ attrs, matchMed b = false) : medScan attrs = .ok none := by
  have := medScan_append attrs [] h
  simpa using this

theorem communityScan_no_match (attrs : List (List Nat))
    (h : ∀ b ∈ attrs, matchCommunity b = false) : communityScan attrs = none := by
  have := communityScan_append attrs [] h
  simpa using this

theorem nextHopScan_ne_indexError (l : List (List Nat)) :
    nextHopScan l ≠ .error .indexError := by
  induction l with
  | nil => exact fun h => Except.noConfusion h
  | cons a l ih =>
    simp only [nextHopScan]
    split
    · split
      · exact fun h => PyExc.noConfusion (Except.error.inj h)
      · split
        · exact fun h => Except.noConfusion h
        · exact fun h => PyExc.noConfusion (Except.error.inj h)
    · exact ih

/-! ### The community pairing loop -/

theorem communityOutput_nil : communityOutput [] = [] := rfl

theorem communityOutput_singleton (a : Nat) : communityOutput [a] = [] := rfl

theorem communityOutput_cons₂ (a b : Nat) (rest : List Nat) :
    communityOutput (a :: b :: rest)
      = (toString a ++ ":" ++ toString b) :: communityOutput rest := by
  unfold communityOutput
  simp only [List.length_cons, List.range_succ_eq_map, List.map_cons,
    List.map_map, List.filterMap_cons, Nat.succ_eq_add_one]
  norm_num
  apply List.filterMap_congr
  intro i _
  simp only [Function.comp]
  by_cases hodd : i % 2 = 1
  · obtain ⟨j, rfl⟩ : ∃ j, i = j + 1 := ⟨i - 1, by omega⟩
    have h2 : (j + 1 + 1 + 1) % 2 = 1 := by omega
    have hidx : j + 1 + 1 + 1 - 1 = j + 1 + 1 := by omega
    simp [hodd, h2, hidx, List.getD_cons_succ]
  · have h2 : (i + 1 + 1) % 2 ≠ 1 := by omega
    simp [hodd, h2]

theorem communityOutput_eq_specPairs : ∀ cs : List Nat,
    communityOutput cs = specPairs cs
  | [] => rfl
  | [a] => rfl
  | a :: b :: rest => by
    rw [communityOutput_cons₂, communityOutput_eq_specPairs rest]
    rfl

theorem specPairs_length : ∀ cs : List Nat, (specPairs cs).length = cs.length / 2
  | [] => rfl
  | [a] => by simp [specPairs]
  | a :: b :: rest => by
    have ih := specPairs_length rest
    simp only [specPairs, List.length_cons, ih]
    omega

theorem medScan_ne_indexError (l : List (List Nat)) :
    medScan l ≠ .error .indexError := by
  induction l with
  | nil => exact fun h => Except.noConfusion h
  | cons a l ih =>
    simp only [medScan]
    split
    · split
      · exact fun h => PyExc.noConfusion (Except.error.inj h)
      · exact fun h => Except.noConfusion h
    · exact ih

/-! ### Decoding well-formed attributes -/

theorem matchAsPath_asPathAttr (asns : List Nat) :
    matchAsPath (asPathAttr asns) = true := by
  simp [matchAsPath, asPathAttr, hexOf_cons]

theorem asPathAttr_decode (asns : List Nat) (h : ∀ n ∈ asns, n < 4294967296) :
    chunkstring 8 ((hexOf (asPathAttr asns)).drop 10) = asns := by
  have hdrop : (hexOf (asPathAttr asns)).drop 10 = hexOf (asns.flatMap be32) := by
    simp [asPathAttr, hexOf_cons]
  rw [hdrop, hexOf_flatMap,
    chunkstring_flatMap 8 (by norm_num) _ _ fun x _ => length_hexOf_be32 x]
  have hmap : ∀ n ∈ asns, natOfNibbles (hexOf (be32 n)) = n := fun n hn => by
    rw [natOfNibbles_hexOf, beNat_be32 (h n hn)]
  rw [List.map_congr_left hmap]; exact List.map_id' asns

theorem matchCommunity_communityAttr (value : List Nat) :
    matchCommunity (communityAttr value) = true := by
  simp [matchCommunity, communityAttr, hexOf_cons]

theorem communityAttr_drop6 (value : List Nat) :
    (hexOf (communityAttr value)).drop 6 = hexOf value := by
  simp [communityAttr, hexOf_cons]

theorem communityAttr_decode (fields : List Nat) (h : ∀ f ∈ fields, f < 65536) :
    chunkstring 4 ((hexOf (communityAttr (fields.flatMap be16))).drop 6)
      = fields := by
  rw [communityAttr_drop6, hexOf_flatMap,
    chunkstring_flatMap 4 (by norm_num) _ _ fun x _ => length_hexOf_be16 x]
  have hmap : ∀ f ∈ fields, natOfNibbles (hexOf (be16 f)) = f := fun f hf => by
    rw [natOfNibbles_hexOf, beNat_be16 (h f hf)]
  rw [List.map_congr_left hmap]; exact List.map_id' fields

theorem matchMed_cons (f t : Nat) (rest : List Nat) :
    matchMed (f :: t :: rest) = true ↔ f = 128 ∧ t < 16 := by
  simp [matchMed, hexOf_cons]
  omega

/-! ## The claims -/

/-- C1: for an attribute list whose first AS_PATH-matching attribute is a
well-formed single-segment AS_PATH (flags `0x40`, type-code 2, 1-byte
length, one path segment) encoding the 4-byte big-endian AS numbers
`asns`, `decode_as_path` returns exactly those AS numbers, in encoded
order; with no AS_PATH-matching attribute present it returns the absent
value `None`. -/
theorem decode_as_path_wellformed :
    (∀ (pre post : List (List Nat)) (asns : List Nat),
        (∀ b ∈ pre, matchAsPath b = false) →
        (∀ n ∈ asns, n < 4294967296) →
        asPathScan (pre ++ asPathAttr asns :: post) = some asns)
    ∧ (∀ attrs : List (List Nat),
        (∀ b ∈ attrs, matchAsPath b = false) → asPathScan attrs = none) := by
  constructor
  · intro pre post asns hpre hasns
    rw [asPathScan_append pre _ hpre]
    simp only [asPathScan, matchAsPath_asPathAttr, if_true]
    rw [asPathAttr_decode asns hasns]
  · exact asPathScan_no_match

/-- Witness for C1: the documented example, AS numbers `[52428, 170]`
(`0xCCCC`, `0xAA`). -/
theorem decode_as_path_wellformed_witness :
    asPathScan [asPathAttr [52428, 170]] = some [52428, 170] := by
  have h := decode_as_path_wellformed.1 [] [] [52428, 170]
    (by intro b hb; simp at hb) (by decide)
  simpa using h

/-- C2: on a community attribute with value bytes
`FA FA FF FF EE EE DD DD` after the 3-byte header, `decode_community`
returns exactly `["64250:65535", "61166:56797"]`: consecutive 2-byte
big-endian fields are paired in encoded order. -/
theorem decode_community_example :
    communityScan [communityAttr [250, 250, 255, 255, 238, 238, 221, 221]]
      = some ["64250:65535", "61166:56797"] := by decide

/-- C3: on a community attribute whose value is `k` 2-byte big-endian
fields with `k` odd, `decode_community` pairs the first `k - 1` fields and
silently drops the trailing unpaired field, producing exactly `⌊k / 2⌋`
entries. -/
theorem decode_community_odd_fields :
    ∀ (pre post : List (List Nat)) (fields : List Nat),
      (∀ b ∈ pre, matchCommunity b = false) →
      (∀ f ∈ fields, f < 65536) →
      fields.length % 2 = 1 →
      communityScan (pre ++ communityAttr (fields.flatMap be16) :: post)
          = some (specPairs fields)
        ∧ (specPairs fields).length = fields.length / 2 := by
  intro pre post fields hpre hf _hodd
  constructor
  · rw [communityScan_append pre _ hpre]
    simp only [communityScan, matchCommunity_communityAttr, if_true]
    rw [communityAttr_decode fields hf, communityOutput_eq_specPairs]
  · exact specPairs_length fields

/-- Witness for C3: three fields `64250, 65535, 61166`; the third is
dropped and one pair remains. -/
theorem decode_community_odd_fields_witness :
    communityScan [communityAttr ([64250, 65535, 61166].flatMap be16)]
        = some (specPairs [64250, 65535, 61166])
      ∧ (specPairs [64250, 65535, 61166]).length = 1 := by
  have h := decode_community_odd_fields [] [] [64250, 65535, 61166]
    (by intro b hb; simp at hb) (by decide) (by decide)
  exact ⟨by simpa using h.1, h.2⟩

/-- C4: on an attribute list containing the NEXT_HOP attribute
`40 03 04 3C 01 02 03` (flags `0x40`, type-code 3, length 4, value
`3C 01 02 03`), `decode_next_hop` returns `"60.1.2.3"`: the 4 value bytes
are read big-endian and rendered dotted-decimal. -/
theorem decode_next_hop_example :
    ∀ (pre post : List (List Nat)),
      (∀ b ∈ pre, matchNextHop b = false) →
      nextHopScan (pre ++ [64, 3, 4, 60, 1, 2, 3] :: post)
        = .ok (some "60.1.2.3") := by
  intro pre post hpre
  rw [nextHopScan_append pre _ hpre]
  rfl

/-- Witness for C4: the attribute alone in the list. -/
theorem decode_next_hop_example_witness :
    nextHopScan [[64, 3, 4, 60, 1, 2, 3]] = .ok (some "60.1.2.3") := by
  have h := decode_next_hop_example [] [] (by intro b hb; simp at hb)
  simpa using h

/-- C5, counterexample: the attribute `80 05 04 00 00 BB BB` has type-code
5, not MED = 4, yet `decode_med` decodes it (its matcher only compares the
flags byte and the high nibble of the type-code), returning `48059`
instead of the absent value the claim requires. -/
theorem decode_med_typecode_cex :
    medScan [[128, 5, 4, 0, 0, 187, 187]] = .ok (some 48059)
      ∧ medScan [[128, 5, 4, 0, 0, 187, 187]] ≠ .ok none := by decide

/-- C5, amended: `decode_med` selects the first attribute whose flags byte
is `0x80` and whose type-code's high nibble is 0 (so MED = 4, but equally
any type-code 0–15), and returns the value bytes after the 3-byte header
as a big-endian unsigned integer; value bytes `00 00 BB BB` yield
`48059`. -/
theorem decode_med_amended :
    (∀ (f t : Nat) (rest : List Nat),
        matchMed (f :: t :: rest) = true ↔ f = 128 ∧ t < 16)
    ∧ (∀ (pre post : List (List Nat)) (t len : Nat) (value : List Nat),
        (∀ b ∈ pre, matchMed b = false) → t < 16 → value ≠ [] →
        medScan (pre ++ (128 :: t :: len :: value) :: post)
          = .ok (some (beNat value))) := by
  refine ⟨matchMed_cons, ?_⟩
  intro pre post t len value hpre ht hv
  rw [medScan_append pre _ hpre]
  have hm : matchMed (128 :: t :: (len :: value)) = true :=
    (matchMed_cons 128 t (len :: value)).mpr ⟨rfl, ht⟩
  simp only [medScan, hm, if_true]
  have hdrop : (hexOf (128 :: t :: len :: value)).drop 6 = hexOf value := by
    simp [hexOf_cons]
  rw [hdrop]
  have hne : hexOf value ≠ [] := by
    intro hcontra
    apply hv
    have := length_hexOf value
    rw [hcontra] at this
    simp at this
    exact this
  rw [if_neg hne, natOfNibbles_hexOf]

/-- Witness for the amended C5: a genuine MED attribute
`80 04 04 00 00 BB BB` decodes to `48059`. -/
theorem decode_med_amended_witness :
    medScan [[128, 4, 4, 0, 0, 187, 187]] = .ok (some (beNat [0, 0, 187, 187]))
      ∧ beNat [0, 0, 187, 187] = 48059 := by
  have h := decode_med_amended.2 [] [] 4 4 [0, 0, 187, 187]
    (by intro b hb; simp at hb) (by decide) (by decide)
  exact ⟨by simpa using h, by decide⟩

/-- C6, counterexample: on a matching attribute truncated before the value
bytes, `decode_next_hop` and `decode_med` raise `ValueError`
(`int("", 16)`) rather than returning the absent value, and
`decode_as_path` returns a present empty list rather than the absent
value. -/
theorem decode_truncated_cex :
    nextHopScan [[64, 3]] = .error .valueError
      ∧ medScan [[128, 4]] = .error .valueError
      ∧ asPathScan [[64, 2]] = some [] := by decide

/-- C6, amended: on an empty attribute list all four decoders return the
absent value; on an attribute list whose first element is a matching
attribute truncated before its value bytes, `decode_as_path` and
`decode_community` return a present empty list while `decode_next_hop`
and `decode_med` raise `ValueError`, which propagates to the caller. -/
theorem decode_truncated_amended :
    (asPathScan [] = none ∧ nextHopScan [] = .ok none
      ∧ medScan [] = .ok none ∧ communityScan [] = none)
    ∧ (∀ (attr : List Nat) (rest : List (List Nat)),
        matchNextHop attr = true → attr.length ≤ 3 →
        nextHopScan (attr :: rest) = .error .valueError)
    ∧ (∀ (attr : List Nat) (rest : List (List Nat)),
        matchMed attr = true → attr.length ≤ 3 →
        medScan (attr :: rest) = .error .valueError)
    ∧ (∀ (attr : List Nat) (rest : List (List Nat)),
        matchAsPath attr = true → attr.length ≤ 5 →
        asPathScan (attr :: rest) = some [])
    ∧ (∀ (attr : List Nat) (rest : List (List Nat)),
        matchCommunity attr = true → attr.length ≤ 3 →
        communityScan (attr :: rest) = some []) := by
  refine ⟨⟨rfl, rfl, rfl, rfl⟩, ?_, ?_, ?_, ?_⟩
  · intro attr rest hm hlen
    have hdrop : (hexOf attr).drop 6 = [] := by
      apply List.drop_eq_nil_of_le
      rw [length_hexOf]; omega
    simp only [nextHopScan, hm, if_true, hdrop, if_pos rfl]
  · intro attr rest hm hlen
    have hdrop : (hexOf attr).drop 6 = [] := by
      apply List.drop_eq_nil_of_le
      rw [length_hexOf]; omega
    simp only [medScan, hm, if_true, hdrop, if_pos rfl]
  · intro attr rest hm hlen
    have hdrop : (hexOf attr).drop 10 = [] := by
      apply List.drop_eq_nil_of_le
      rw [length_hexOf]; omega
    simp only [asPathScan, hm, if_true, hdrop, chunkstring_nil]
  · intro attr rest hm hlen
    have hdrop : (hexOf attr).drop 6 = [] := by
      apply List.drop_eq_nil_of_le
      rw [length_hexOf]; omega
    simp only [communityScan, hm, if_true, hdrop, chunkstring_nil]
    rfl

/-- Witness for the amended C6: the truncated NEXT_HOP attribute `40 03`. -/
theorem decode_truncated_amended_witness :
    nextHopScan [[64, 3]] = .error .valueError := by
  exact decode_truncated_amended.2.1 [64, 3] [] (by decide) (by decide)

/-- C9: each of the four decode operations returns the value decoded from
the first attribute matching its pattern, in list order; the attributes
after the first match (in particular any duplicate of the same kind) have
no effect on the result. -/
theorem decode_first_match_wins :
    ∀ (pre post : List (List Nat)) (a : List Nat),
      ((∀ b ∈ pre, matchAsPath b = false) → matchAsPath a = true →
        asPathScan (pre ++ a :: post) = asPathScan [a])
      ∧ ((∀ b ∈ pre, matchNextHop b = false) → matchNextHop a = true →
        nextHopScan (pre ++ a :: post) = nextHopScan [a])
      ∧ ((∀ b ∈ pre, matchMed b = false) → matchMed a = true →
        medScan (pre ++ a :: post) = medScan [a])
      ∧ ((∀ b ∈ pre, matchCommunity b = false) → matchCommunity a = true →
        communityScan (pre ++ a :: post) = communityScan [a]) := by
  intro pre post a
  refine ⟨fun hpre hm => ?_, fun hpre hm => ?_, fun hpre hm => ?_,
    fun hpre hm => ?_⟩
  · rw [asPathScan_append pre _ hpre]
    simp only [asPathScan, hm, if_true]
  · rw [nextHopScan_append pre _ hpre]
    simp only [nextHopScan, hm, if_true]
  · rw [medScan_append pre _ hpre]
    simp only [medScan, hm, if_true]
  · rw [communityScan_append pre _ hpre]
    simp only [communityScan, hm, if_true]

/-- Witness for C9: two MED attributes; the result equals the decode of
the first alone, the duplicate being ignored. -/
theorem decode_first_match_wins_witness :
    medScan [[128, 4, 4, 0, 0, 187, 187], [128, 4, 4, 9, 9, 9, 9]]
      = medScan [[128, 4, 4, 0, 0, 187, 187]] := by
  have h := (decode_first_match_wins [] [[128, 4, 4, 9, 9, 9, 9]]
    [128, 4, 4, 0, 0, 187, 187]).2.2.1 (by intro b hb; simp at hb) (by decide)
  simpa using h

/-- C10: a community attribute that is present but whose value holds zero
or one 2-byte fields decodes to `some []`, the present-but-empty list,
which is distinct from the absent value `none` returned when no community
attribute is present. -/
theorem decode_community_empty_vs_absent :
    (∀ (pre post : List (List Nat)) (value : List Nat),
        (∀ b ∈ pre, matchCommunity b = false) →
        (value.length = 0 ∨ value.length = 2) →
        communityScan (pre ++ communityAttr value :: post) = some [])
    ∧ (∀ attrs : List (List Nat),
        (∀ b ∈ attrs, matchCommunity b = false) → communityScan attrs = none)
    ∧ some ([] : List String) ≠ none := by
  refine ⟨?_, communityScan_no_match, by decide⟩
  intro pre post value hpre hlen
  rw [communityScan_append pre _ hpre]
  simp only [communityScan, matchCommunity_communityAttr, if_true,
    communityAttr_drop6]
  rcases hlen with h0 | h2
  · rw [List.eq_nil_of_length_eq_zero h0]
    rfl
  · obtain ⟨x, y, rfl⟩ := List.length_eq_two.mp h2
    rw [chunkstring_single 4 (by norm_num) _ (by simp [hexOf_cons])
      (by rw [length_hexOf]; simp)]
    rfl

/-- Success of `_extract_routes` on a nonempty destination list: the head
destination contributes exactly one route, carrying its prefix verbatim,
and the tail is extracted unchanged. -/
theorem extract_routes_cons_ok (d : Destination) (rest : List Destination)
    (routes : List Route) (h : extract_routes (d :: rest) = .ok routes) :
    ∃ r tail, routes = r :: tail ∧ r.pfx = d.pfx
      ∧ extract_routes rest = .ok tail := by
  simp only [extract_routes] at h
  cases h1 : extract_as_path d with
  | error e => rw [h1] at h; simp at h
  | ok as_path =>
  rw [h1] at h
  cases h2 : extract_next_hop d with
  | error e => rw [h2] at h; simp at h
  | ok next_hop =>
  rw [h2] at h
  cases h3 : extract_community d with
  | error e => rw [h3] at h; simp at h
  | ok community =>
  rw [h3] at h
  cases h4 : extract_med d with
  | error e => rw [h4] at h; simp at h
  | ok med =>
  rw [h4] at h
  cases h5 : extract_routes rest with
  | error e => rw [h5] at h; simp at h
  | ok tail =>
  rw [h5] at h
  simp only [Except.ok.injEq] at h
  subst h
  exact ⟨_, tail, rfl, rfl, rfl⟩

/-- C8: whenever `_extract_routes` returns a route list, it has exactly one
route per input destination, in input order, each route carrying the
corresponding destination's prefix verbatim — no deduplication, sorting or
filtering. -/
theorem extract_all_order :
    ∀ (dests : List Destination) (routes : List Route),
      extract_routes dests = .ok routes →
      routes.length = dests.length
        ∧ ∀ (i : Nat) (hi : i < routes.length) (hd : i < dests.length),
            (routes.get ⟨i, hi⟩).pfx = (dests.get ⟨i, hd⟩).pfx := by
  intro dests
  induction dests with
  | nil =>
    intro routes h
    simp only [extract_routes, Except.ok.injEq] at h
    subst h
    exact ⟨rfl, fun i hi _ => absurd hi (by simp)⟩
  | cons d rest ih =>
    intro routes h
    obtain ⟨r, tail, rfl, hpfx, htail⟩ := extract_routes_cons_ok d rest routes h
    obtain ⟨hlen, hidx⟩ := ih tail htail
    refine ⟨by simp [hlen], ?_⟩
    intro i hi hd
    cases i with
    | zero => simpa using hpfx
    | succ j =>
      simp only [List.get_cons_succ]
      exact hidx j _ _

/-- Witness for C8: two destinations with no attributes extract to two
routes with matching prefixes, so the lengths agree. -/
theorem extract_all_order_witness :
    ([⟨"10.0.0.0/8", none, none, none, none⟩,
      ⟨"20.0.0.0/8", none, none, none, none⟩] : List Route).length
      = ([⟨"10.0.0.0/8", [⟨[]⟩]⟩, ⟨"20.0.0.0/8", [⟨[]⟩]⟩]
          : List Destination).length :=
  (extract_all_order [⟨"10.0.0.0/8", [⟨[]⟩]⟩, ⟨"20.0.0.0/8", [⟨[]⟩]⟩]
    [⟨"10.0.0.0/8", none, none, none, none⟩,
     ⟨"20.0.0.0/8", none, none, none, none⟩] rfl).1

/-- C7: a destination with an empty path list makes every attribute
extractor — and the whole route extraction — fail with `IndexError`
(`destination.paths[0]`), an outcome distinct from every result (absent
values included) produced for a destination that has a first path, where
`IndexError` is unreachable. -/
theorem extract_empty_paths_distinct :
    ∀ d : Destination, d.paths = [] →
      (extract_as_path d = .error .indexError
        ∧ extract_next_hop d = .error .indexError
        ∧ extract_community d = .error .indexError
        ∧ extract_med d = .error .indexError
        ∧ ∀ rest, extract_routes (d :: rest) = .error .indexError)
      ∧ (∀ d' : Destination, d'.paths ≠ [] →
          extract_as_path d' ≠ .error .indexError
          ∧ extract_next_hop d' ≠ .error .indexError
          ∧ extract_community d' ≠ .error .indexError
          ∧ extract_med d' ≠ .error .indexError) := by
  intro d hd
  have h1 : extract_as_path d = .error .indexError := by
    simp [extract_as_path, hd]
  refine ⟨⟨h1, by simp [extract_next_hop, hd], by simp [extract_community, hd],
    by simp [extract_med, hd], ?_⟩, ?_⟩
  · intro rest
    simp only [extract_routes, h1]
  · intro d' hd'
    match hp : d'.paths with
    | [] => exact absurd hp hd'
    | p :: l =>
      refine ⟨?_, ?_, ?_, ?_⟩
      · simp [extract_as_path, hp]
      · simp only [extract_next_hop, hp]
        exact nextHopScan_ne_indexError _
      · simp [extract_community, hp]
      · simp only [extract_med, hp]
        exact medScan_ne_indexError _

/-- Witness for C7: a destination with zero paths. -/
theorem extract_empty_paths_distinct_witness :
    extract_routes [⟨"10.0.0.0/8", []⟩] = .error .indexError :=
  ((extract_empty_paths_distinct ⟨"10.0.0.0/8", []⟩ rfl).1.2.2.2.2) []

/-- Witness for C10: a community attribute with a single 2-byte field. -/
theorem decode_community_empty_vs_absent_witness :
    communityScan [communityAttr [250, 250]] = some [] := by
  have h := decode_community_empty_vs_absent.1 [] [] [250, 250]
    (by intro b hb; simp at hb) (by decide)
  simpa using h

end PyGoBGP

